import Mathlib

/-!
Verification model of the JUCE audio backend
(src/native/juce-backend/src/main.cpp).

C++ doubles are modelled exactly: a value is NaN, a signed infinity, or a
finite rational. Rounding and overflow of finite arithmetic are not modelled;
NaN propagation, IEEE comparison semantics (comparisons with NaN are false)
and the infinity arithmetic of the source's expressions are.
-/

namespace TranscriptionJuce

/-- Model of a C++ double: NaN, a signed infinity (`inf true` is plus
infinity), or a finite exact value. -/
inductive DVal where
  | nan : DVal
  | inf : Bool → DVal
  | fin : ℚ → DVal
deriving DecidableEq

/-- Model of `std::isfinite`. -/
def DVal.isFinite : DVal → Bool
  | .fin _ => true
  | _ => false

/-- IEEE negation. -/
def DVal.neg : DVal → DVal
  | .nan => .nan
  | .inf b => .inf (!b)
  | .fin q => .fin (-q)

/-- IEEE addition (without rounding or overflow of finite sums). -/
def DVal.add : DVal → DVal → DVal
  | .nan, _ => .nan
  | _, .nan => .nan
  | .inf b, .inf c => if b = c then .inf b else .nan
  | .inf b, .fin _ => .inf b
  | .fin _, .inf c => .inf c
  | .fin p, .fin q => .fin (p + q)

/-- IEEE subtraction, `x - y = x + (-y)`. -/
def DVal.sub (x y : DVal) : DVal := x.add y.neg

/-- IEEE multiplication. -/
def DVal.mul : DVal → DVal → DVal
  | .nan, _ => .nan
  | _, .nan => .nan
  | .inf b, .inf c => .inf (b = c)
  | .inf b, .fin q => if q = 0 then .nan else .inf (b = decide (0 < q))
  | .fin q, .inf b => if q = 0 then .nan else .inf (b = decide (0 < q))
  | .fin p, .fin q => .fin (p * q)

/-- IEEE division (signed zero is not modelled; division by zero with a
nonzero numerator yields an infinity, `0/0` yields NaN). -/
def DVal.div : DVal → DVal → DVal
  | .nan, _ => .nan
  | _, .nan => .nan
  | .inf _, .inf _ => .nan
  | .inf b, .fin q => .inf (b = decide (0 ≤ q))
  | .fin _, .inf _ => .fin 0
  | .fin p, .fin q =>
      if q = 0 then (if p = 0 then .nan else .inf (decide (0 < p))) else .fin (p / q)

/-- IEEE `<`: any comparison involving NaN is false. -/
def DVal.blt : DVal → DVal → Bool
  | .nan, _ => false
  | _, .nan => false
  | .inf b, .inf c => !b && c
  | .inf b, .fin _ => !b
  | .fin _, .inf c => c
  | .fin p, .fin q => decide (p < q)

/-- IEEE `<=`: any comparison involving NaN is false. -/
def DVal.ble : DVal → DVal → Bool
  | .nan, _ => false
  | _, .nan => false
  | .inf b, .inf c => !b || c
  | .inf b, .fin _ => !b
  | .fin _, .inf c => c
  | .fin p, .fin q => decide (p ≤ q)

/-- IEEE `==`: NaN is not equal to anything, including itself. -/
def DVal.beq : DVal → DVal → Bool
  | .nan, _ => false
  | _, .nan => false
  | .inf b, .inf c => b == c
  | .inf _, .fin _ => false
  | .fin _, .inf _ => false
  | .fin p, .fin q => p == q

/-- Model of `std::abs` on doubles. -/
def DVal.abs : DVal → DVal
  | .nan => .nan
  | .inf _ => .inf true
  | .fin q => .fin |q|

/-- Model of `std::clamp(v, lo, hi)`: `v < lo ? lo : (hi < v ? hi : v)`. -/
def DVal.clampV (v lo hi : DVal) : DVal :=
  if v.blt lo then lo else if hi.blt v then hi else v

/-- Model of `std::max(a, b)`: `(a < b) ? b : a`. -/
def DVal.fmax (a b : DVal) : DVal := if a.blt b then b else a

/-- Model of `std::min(a, b)`: `(b < a) ? b : a`. -/
def DVal.fmin (a b : DVal) : DVal := if b.blt a then b else a

/-- `kMinDuration` from main.cpp: 0.1 ms guard against zero-length ranges. -/
def kMinDuration : ℚ := 1 / 10000

/-- `kMaxReasonableTime` from `sanitizeTime`: 24 hours in seconds. -/
def kMaxReasonableTime : ℚ := 24 * 60 * 60

/-- Model of `sanitizeTime(value, fallback)` (main.cpp lines 45-52): a
non-finite value yields the raw fallback; a finite value is clamped to
`[0, 24h]`. -/
def sanitizeTime (value fallback : DVal) : DVal :=
  match value with
  | .fin q =>
      if q < 0 then .fin 0
      else if kMaxReasonableTime < q then .fin kMaxReasonableTime
      else .fin q
  | _ => fallback

/-- Model of `sanitizeDuration(value)` (main.cpp lines 54-58): non-finite or
below `kMinDuration` yields 0, otherwise the value itself. -/
def sanitizeDuration (value : DVal) : DVal :=
  match value with
  | .fin q => if q < kMinDuration then .fin 0 else .fin q
  | _ => .fin 0

/-- Flattened playback segment (main.cpp `struct Segment`). `end_` stands for
the C++ field `end`. The original-interval fields default to -1, meaning
"not provided". -/
structure Segment where
  type : String := ""
  start : DVal
  end_ : DVal
  dur : DVal
  text : String := ""
  originalStart : DVal := .fin (-1)
  originalEnd : DVal := .fin (-1)
deriving DecidableEq

/-- `Segment::hasOriginal()`: `originalStart >= 0 && originalEnd >= 0` with
IEEE comparisons. -/
def Segment.hasOriginal (s : Segment) : Bool :=
  (DVal.fin 0).ble s.originalStart && (DVal.fin 0).ble s.originalEnd

/-- Clip container (main.cpp `struct Clip`). -/
structure Clip where
  id : String := ""
  startSec : DVal
  endSec : DVal
  originalStartSec : DVal := .fin (-1)
  originalEndSec : DVal := .fin (-1)
  speaker : String := ""
  type : String := ""
  segments : List Segment := []
deriving DecidableEq

/-- `Clip::hasOriginal()`. -/
def Clip.hasOriginal (c : Clip) : Bool :=
  (DVal.fin 0).ble c.originalStartSec && (DVal.fin 0).ble c.originalEndSec

/-- The per-segment original start used by the mapping helpers:
`s.hasOriginal() ? sanitizeTime(s.originalStart, s.start) : sanitizeTime(s.start)`. -/
def segOs (s : Segment) : DVal :=
  if s.hasOriginal then sanitizeTime s.originalStart s.start
  else sanitizeTime s.start (.fin 0)

/-- The per-segment original end used by the mapping helpers. -/
def segOe (s : Segment) : DVal :=
  if s.hasOriginal then sanitizeTime s.originalEnd s.end_
  else sanitizeTime s.end_ (.fin 0)

/-- Loop of `Backend::originalToEdited` (main.cpp lines 650-670): walk the
segments accumulating edited duration. -/
def originalToEditedGo : List Segment → DVal → DVal → DVal
  | [], _, accEdited => accEdited
  | s :: rest, pos, accEdited =>
      let os := segOs s
      let oe := segOe s
      let odur := sanitizeDuration (oe.sub os)
      let edur := sanitizeDuration s.dur
      if odur.ble (.fin 0) || edur.ble (.fin 0) then
        originalToEditedGo rest pos accEdited
      else if pos.blt os then accEdited
      else if pos.blt (os.add odur) then
        accEdited.add ((DVal.clampV ((pos.sub os).div odur) (.fin 0) (.fin 1)).mul edur)
      else
        originalToEditedGo rest pos (accEdited.add edur)

/-- `Backend::originalToEdited(orig)` (main.cpp lines 650-670). -/
def originalToEdited (segments : List Segment) (orig : DVal) : DVal :=
  match segments with
  | [] => sanitizeTime orig (.fin 0)
  | s :: rest => originalToEditedGo (s :: rest) (sanitizeTime orig (.fin 0)) (.fin 0)

/-- Past-the-end fallthrough of `Backend::editedToOriginal` (main.cpp lines
689-690), applied to `segments.back()`. -/
def e2oFallback (last : Segment) : DVal :=
  if last.hasOriginal then sanitizeTime last.originalEnd last.end_
  else sanitizeTime last.end_ (.fin 0)

/-- Loop of `Backend::editedToOriginal` (main.cpp lines 671-691). `last` is
`segments.back()` of the full list, used by the fallthrough return. -/
def editedToOriginalGo (last : Segment) : List Segment → DVal → DVal → DVal
  | [], _, _ => e2oFallback last
  | s :: rest, target, accEdited =>
      let os := segOs s
      let oe := segOe s
      let odur := sanitizeDuration (oe.sub os)
      let edur := sanitizeDuration s.dur
      if odur.ble (.fin 0) || edur.ble (.fin 0) then
        editedToOriginalGo last rest target accEdited
      else if target.ble (accEdited.add edur) then
        os.add ((DVal.clampV ((target.sub accEdited).div edur) (.fin 0) (.fin 1)).mul odur)
      else
        editedToOriginalGo last rest target (accEdited.add edur)

/-- `Backend::editedToOriginal(ed)` (main.cpp lines 671-691). -/
def editedToOriginal (segments : List Segment) (ed : DVal) : DVal :=
  match segments with
  | [] => sanitizeTime ed (.fin 0)
  | s :: rest =>
      editedToOriginalGo ((s :: rest).getLastD s) (s :: rest)
        (sanitizeTime ed (.fin 0)) (.fin 0)

/-- Raw segment record as produced by the naive JSON field extraction of
`parseClipsFromJsonPayload`: `extractNumber` yields NaN for a missing or
unparseable key, so every numeric field is a `DVal`. -/
structure RawSeg where
  type : String := ""
  startSec : DVal
  endSec : DVal
  originalStartSec : DVal := .nan
  originalEndSec : DVal := .nan
  text : String := ""
deriving DecidableEq

/-- Raw clip record as extracted from one `clips[]` object. -/
structure RawClip where
  id : String := ""
  startSec : DVal
  endSec : DVal
  originalStartSec : DVal := .nan
  originalEndSec : DVal := .nan
  speaker : String := ""
  type : String := ""
  segments : List RawSeg := []
deriving DecidableEq

/-- Segment ingestion of `parseClipsFromJsonPayload` (main.cpp lines
370-406): drop on NaN start or end (`x == x` self-test) and on sanitized
duration at most 0; validate the optional original interval the same way. -/
def parseSegment (rs : RawSeg) : Option Segment :=
  if !(rs.startSec.beq rs.startSec && rs.endSec.beq rs.endSec) then none
  else
    let segStartSafe := sanitizeTime rs.startSec (.fin 0)
    let segEndSafe := sanitizeTime rs.endSec segStartSafe
    let segDurSafe := sanitizeDuration (segEndSafe.sub segStartSafe)
    if segDurSafe.ble (.fin 0) then none
    else
      let op :=
        if rs.originalStartSec.beq rs.originalStartSec &&
            rs.originalEndSec.beq rs.originalEndSec then
          let oS := sanitizeTime rs.originalStartSec (.fin 0)
          let oE := sanitizeTime rs.originalEndSec oS
          if (sanitizeDuration (oE.sub oS)).ble (.fin 0) then
            (DVal.fin (-1), DVal.fin (-1))
          else (oS, oE)
        else (DVal.fin (-1), DVal.fin (-1))
      some { type := rs.type, start := segStartSafe,
             end_ := segStartSafe.add segDurSafe, dur := segDurSafe,
             text := rs.text, originalStart := op.1, originalEnd := op.2 }

/-- Clip ingestion of `parseClipsFromJsonPayload` (main.cpp lines 307-415):
sanitize the clip interval, drop on nonpositive sanitized duration, validate
the optional clip originals, parse the segments, drop the clip if no segment
survives. -/
def parseClip (rc : RawClip) : Option Clip :=
  let startSec := sanitizeTime rc.startSec (.fin 0)
  let endSec := sanitizeTime rc.endSec startSec
  let clipDur := sanitizeDuration (endSec.sub startSec)
  if clipDur.ble (.fin 0) then none
  else
    let op :=
      if rc.originalStartSec.beq rc.originalStartSec &&
          rc.originalEndSec.beq rc.originalEndSec then
        let oS := sanitizeTime rc.originalStartSec startSec
        let oE := sanitizeTime rc.originalEndSec oS
        if (sanitizeDuration (oE.sub oS)).ble (.fin 0) then
          (DVal.fin (-1), DVal.fin (-1))
        else (oS, oE)
      else (DVal.fin (-1), DVal.fin (-1))
    let segs := rc.segments.filterMap parseSegment
    if segs.isEmpty then none
    else
      some { id := rc.id, startSec := startSec, endSec := endSec,
             originalStartSec := op.1, originalEndSec := op.2,
             speaker := rc.speaker, type := rc.type, segments := segs }

/-- `parseClipsFromJsonPayload` on the extracted clip records. -/
def parseClips (payload : List RawClip) : List Clip :=
  payload.filterMap parseClip

/-- One step of the contiguous-timeline detection: `|gap| < 0.01` with
`gap = clips[i].startSec - clips[i-1].endSec` (main.cpp lines 910-915). -/
def gapMatch (prev cur : Clip) : Bool :=
  (DVal.abs (cur.startSec.sub prev.endSec)).blt (.fin (1 / 100))

/-- Count of adjacent gap matches over a clip list. -/
def countGapMatches : List Clip → Nat
  | a :: b :: rest => (if gapMatch a b then 1 else 0) + countGapMatches (b :: rest)
  | _ => 0

/-- Contiguous-timeline detection of `updateEdl` (main.cpp lines 906-923):
requires more than one clip, and at least 2 gap matches over the adjacent
pairs with index `i < 5` (that is, within the first five clips). -/
def updateEdlContiguous (clips : List Clip) : Bool :=
  decide (1 < clips.length) && decide (2 ≤ countGapMatches (clips.take 5))

/-- Original-interval computation of the per-segment flattening (main.cpp
lines 967-991): segment-level originals if usable, else proportional
interpolation from the clip originals, else the segment's edited interval;
a final guard replaces an unusable result by the edited interval. -/
def flattenSegOriginals (clipTimelineDur : DVal) (clipHasOriginal : Bool)
    (clipOriginalStart clipOriginalDur : DVal) (seg : Segment)
    (segStartTimeline segEndTimeline segTimelineDur : DVal) : DVal × DVal :=
  let op :=
    if seg.hasOriginal then
      let segOrigStart := sanitizeTime seg.originalStart segStartTimeline
      let segOrigEnd := sanitizeTime seg.originalEnd segOrigStart
      let segOrigDur := sanitizeDuration (segOrigEnd.sub segOrigStart)
      if (DVal.fin 0).blt segOrigDur then (segOrigStart, segOrigStart.add segOrigDur)
      else (segStartTimeline, segEndTimeline)
    else if clipHasOriginal && (DVal.fin 0).blt clipOriginalDur then
      let ratio := DVal.fmin (.fin 1) (DVal.fmax (.fin 0) (seg.start.div clipTimelineDur))
      let mappedStart := clipOriginalStart.add (ratio.mul clipOriginalDur)
      let fOS := sanitizeTime mappedStart clipOriginalStart
      let fOE := sanitizeTime (fOS.add segTimelineDur) (fOS.add segTimelineDur)
      (fOS, fOE)
    else (segStartTimeline, segEndTimeline)
  if (sanitizeDuration (op.2.sub op.1)).ble (.fin 0) then
    (segStartTimeline, segEndTimeline)
  else op

/-- Per-segment flattening step of `updateEdl` (main.cpp lines 946-994),
with the enclosing clip's sanitized values passed in. Returns `none` when
the segment is dropped. -/
def flattenSeg (clipTimelineStart clipTimelineDur : DVal) (clipHasOriginal : Bool)
    (clipOriginalStart clipOriginalDur : DVal) (seg : Segment) : Option Segment :=
  let segDur := sanitizeDuration seg.dur
  if segDur.ble (.fin 0) then none
  else
    let segStartTimeline := sanitizeTime (clipTimelineStart.add seg.start) clipTimelineStart
    let segEndTimeline :=
      sanitizeTime (segStartTimeline.add segDur) (segStartTimeline.add segDur)
    let segTimelineDur := sanitizeDuration (segEndTimeline.sub segStartTimeline)
    if segTimelineDur.ble (.fin 0) then none
    else
      let op2 := flattenSegOriginals clipTimelineDur clipHasOriginal
        clipOriginalStart clipOriginalDur seg segStartTimeline segEndTimeline segTimelineDur
      some { type := seg.type, start := segStartTimeline,
             end_ := segStartTimeline.add segTimelineDur, dur := segTimelineDur,
             text := seg.text, originalStart := op2.1, originalEnd := op2.2 }

/-- Per-clip flattening of `updateEdl` (main.cpp lines 932-995). -/
def flattenClip (clip : Clip) : List Segment :=
  let clipTimelineStart := sanitizeTime clip.startSec (.fin 0)
  let clipTimelineEnd := sanitizeTime clip.endSec clipTimelineStart
  let clipTimelineDur := sanitizeDuration (clipTimelineEnd.sub clipTimelineStart)
  if clipTimelineDur.ble (.fin 0) then []
  else
    let clipHasOriginal := clip.hasOriginal
    let clipOriginalStart :=
      if clipHasOriginal then sanitizeTime clip.originalStartSec clipTimelineStart
      else .fin 0
    let clipOriginalEnd :=
      if clipHasOriginal then sanitizeTime clip.originalEndSec clipOriginalStart
      else .fin 0
    let clipOriginalDur :=
      if clipHasOriginal then sanitizeDuration (clipOriginalEnd.sub clipOriginalStart)
      else .fin 0
    clip.segments.filterMap
      (flattenSeg clipTimelineStart clipTimelineDur clipHasOriginal
        clipOriginalStart clipOriginalDur)

/-- Comparator of the `std::sort` call on flattened segments (main.cpp lines
998-1001). -/
def segLess (a b : Segment) : Bool :=
  if a.start.beq b.start then a.end_.blt b.end_ else a.start.blt b.start

/-- Ordered insertion with respect to `segLess`. -/
def insertSeg (s : Segment) : List Segment → List Segment
  | [] => [s]
  | t :: rest => if segLess t s then t :: insertSeg s rest else s :: t :: rest

/-- Model of the `std::sort` on flattened segments: a sort by `segLess`
(claims proved here do not depend on the order of ties). -/
def sortSegments : List Segment → List Segment
  | [] => []
  | s :: rest => insertSeg s (sortSegments rest)

/-- The flattened, sorted segment list built by `updateEdl` before the
contiguous fallback (main.cpp lines 931-1002). -/
def updateEdlSegments (clips : List Clip) : List Segment :=
  sortSegments (clips.map flattenClip).flatten

/-- The fallback full-file segment installed by `updateEdl` (main.cpp lines
1014-1021), with the original interval set to the whole file. -/
def fullFileSegment (d : DVal) : Segment :=
  { type := "speech", start := .fin 0, end_ := d, dur := d, text := "",
    originalStart := .fin 0, originalEnd := d }

/-- Segment list and contiguous flag installed by `updateEdl` (flattening
plus the contiguous-with-no-segments fallback of main.cpp lines 1006-1024).
`durationSec` is the backend's `g.durationSec`. -/
def updateEdlApply (clips : List Clip) (durationSec : DVal) : List Segment × Bool :=
  let contig := updateEdlContiguous clips
  let segs := updateEdlSegments clips
  if contig && segs.isEmpty then
    (if (DVal.fin 0).blt durationSec then [fullFileSegment durationSec] else [], false)
  else (segs, contig)

/-- Events emitted on stdout by the backend. -/
inductive Event where
  | loaded (id : String) (durationSec : DVal)
  | state (id : String) (playing : Bool)
  | position (id : String) (editedSec originalSec : DVal)
  | ended (id : String)
  | edlApplied (id : String) (revision : Int) (wordCount spacerCount totalSegments : Nat)
      (mode : String)
  | error (message : String)
deriving DecidableEq

/-- Controller-visible state of the JUCE `Backend` plus the global `State g`:
the installed flattened segments, transport original-time position, edited
playhead, flags, rate and gain. -/
structure BackendState where
  id : String := ""
  readerLoaded : Bool := false
  playing : Bool := false
  editedSec : DVal := .fin 0
  transportPos : DVal := .fin 0
  durationSec : DVal := .fin 60
  playbackRate : DVal := .fin 1
  resamplingRatio : DVal := .fin 1
  gain : DVal := .fin 1
  segments : List Segment := []
  clips : List Clip := []
  isContiguousTimeline : Bool := false
  currentRevision : Int := 0
deriving DecidableEq

/-- `Backend::emitPositionFromTransport` (main.cpp lines 629-635): the
emitted `originalSec` is `sanitizeTime(editedToOriginal(es))` where
`es = sanitizeTime(g.editedSec)`; the transport position is not read. -/
def emitPositionFromTransport (st : BackendState) : Event :=
  let es := sanitizeTime st.editedSec (.fin 0)
  .position st.id es (sanitizeTime (editedToOriginal st.segments es) (.fin 0))

/-- `Backend::play` (main.cpp lines 757-775). -/
def Backend.play (st : BackendState) : BackendState × List Event :=
  if !st.readerLoaded then (st, [.error "No audio loaded"])
  else ({ st with playing := true }, [.state st.id true])

/-- `Backend::pause` (main.cpp lines 777-789). -/
def Backend.pause (st : BackendState) : BackendState × List Event :=
  if !st.readerLoaded then (st, [.error "No audio loaded"])
  else ({ st with playing := false }, [.state st.id false])

/-- `Backend::stop` (main.cpp lines 791-806): stop, reset transport position
and edited playhead to 0, emit `state` then `position`. -/
def Backend.stop (st : BackendState) : BackendState × List Event :=
  if !st.readerLoaded then (st, [.error "No audio loaded"])
  else
    let st2 := { st with transportPos := .fin 0, editedSec := .fin 0, playing := false }
    (st2, [.state st2.id false, emitPositionFromTransport st2])

/-- `Backend::seek(editedSec)` (main.cpp lines 808-822): set the transport
original position to `editedToOriginal(editedSec)`, store the raw edited
seconds, emit `position`. -/
def Backend.seek (st : BackendState) (editedSec : DVal) : BackendState × List Event :=
  if !st.readerLoaded then (st, [.error "No audio loaded"])
  else
    let orig := editedToOriginal st.segments editedSec
    let st2 := { st with transportPos := orig, editedSec := editedSec }
    (st2, [emitPositionFromTransport st2])

/-- The sanitized rate computed by `Backend::setRate` (main.cpp lines
824-831): non-finite defaults to 1.0, then nonpositive defaults to 1.0,
then clamp to `[0.25, 4.0]`. -/
def setRateValue (rate : DVal) : ℚ :=
  let s1 : ℚ := match rate with | .fin q => q | _ => 1
  let s2 : ℚ := if s1 ≤ 0 then 1 else s1
  if s2 < 1 / 4 then 1 / 4 else if 4 < s2 then 4 else s2

/-- `Backend::setRate` (main.cpp lines 824-831). -/
def Backend.setRate (st : BackendState) (rate : DVal) : BackendState × List Event :=
  ({ st with playbackRate := .fin (setRateValue rate),
             resamplingRatio := .fin (setRateValue rate) }, [])

/-- The sanitized gain computed by `Backend::setVolume` (main.cpp lines
833-838): non-finite defaults to 1.0, then clamp to `[0.0, 2.0]`. -/
def setVolumeValue (gain : DVal) : ℚ :=
  let s1 : ℚ := match gain with | .fin q => q | _ => 1
  if s1 < 0 then 0 else if 2 < s1 then 2 else s1

/-- `Backend::setVolume` (main.cpp lines 833-838). -/
def Backend.setVolume (st : BackendState) (gain : DVal) : BackendState × List Event :=
  ({ st with gain := .fin (setVolumeValue gain) }, [])

/-- Word/spacer/total counts over the (unflattened) clips, as used by the
`edlApplied` event (main.cpp lines 851-863). -/
def edlCounts (clips : List Clip) : Nat × Nat × Nat :=
  let total := (clips.map (fun c => c.segments.length)).sum
  let spacers :=
    (clips.map (fun c => (c.segments.filter (fun s => s.type == "spacer")).length)).sum
  (total - spacers, spacers, total)

/-- `Backend::updateEdl` (main.cpp lines 846-1041): install the clips,
derive the contiguous flag, flatten and sort the segments, apply the
contiguous fallback, emit `edlApplied`. -/
def Backend.updateEdl (st : BackendState) (newClips : List Clip) (revision : Int) :
    BackendState × List Event :=
  let sc := updateEdlApply newClips st.durationSec
  let counts := edlCounts newClips
  let mode := if sc.2 then "contiguous" else "standard"
  ({ st with clips := newClips, currentRevision := revision,
             segments := sc.1, isContiguousTimeline := sc.2 },
   [.edlApplied st.id revision counts.1 counts.2.1 counts.2.2 mode])

/-! Basic computation lemmas for the double model. -/

@[simp] theorem DVal.add_fin (p q : ℚ) : (DVal.fin p).add (.fin q) = .fin (p + q) := rfl

@[simp] theorem DVal.neg_fin (p : ℚ) : (DVal.fin p).neg = .fin (-p) := rfl

@[simp] theorem DVal.sub_fin (p q : ℚ) : (DVal.fin p).sub (.fin q) = .fin (p - q) := by
  simp [DVal.sub, sub_eq_add_neg]

@[simp] theorem DVal.mul_fin (p q : ℚ) : (DVal.fin p).mul (.fin q) = .fin (p * q) := rfl

theorem DVal.div_fin (p q : ℚ) (h : q ≠ 0) : (DVal.fin p).div (.fin q) = .fin (p / q) := by
  simp [DVal.div, h]

@[simp] theorem DVal.blt_fin (p q : ℚ) : (DVal.fin p).blt (.fin q) = true ↔ p < q := by
  simp [DVal.blt]

@[simp] theorem DVal.ble_fin (p q : ℚ) : (DVal.fin p).ble (.fin q) = true ↔ p ≤ q := by
  simp [DVal.ble]

@[simp] theorem DVal.isFinite_fin (p : ℚ) : (DVal.fin p).isFinite = true := rfl

@[simp] theorem DVal.isFinite_nan : DVal.nan.isFinite = false := rfl

@[simp] theorem DVal.isFinite_inf (b : Bool) : (DVal.inf b).isFinite = false := rfl

/-- A finite value already inside `[0, 24h]` passes `sanitizeTime` unchanged. -/
theorem sanitizeTime_id (q : ℚ) (f : DVal) (h0 : 0 ≤ q) (h1 : q ≤ kMaxReasonableTime) :
    sanitizeTime (.fin q) f = .fin q := by
  rw [sanitizeTime, if_neg (not_lt.2 h0), if_neg (not_lt.2 h1)]

/-- A duration of at least `kMinDuration` passes `sanitizeDuration` unchanged. -/
theorem sanitizeDuration_id (q : ℚ) (h : kMinDuration ≤ q) :
    sanitizeDuration (.fin q) = .fin q := by
  rw [sanitizeDuration, if_neg (not_lt.2 h)]

/-- `sanitizeTime` with a finite fallback always produces a finite value. -/
theorem sanitizeTime_finite (v : DVal) (qf : ℚ) :
    ∃ q : ℚ, sanitizeTime v (.fin qf) = .fin q := by
  cases v with
  | fin q =>
      rw [sanitizeTime]
      split
      · exact ⟨0, rfl⟩
      · split
        · exact ⟨kMaxReasonableTime, rfl⟩
        · exact ⟨q, rfl⟩
  | nan => exact ⟨qf, rfl⟩
  | inf b => exact ⟨qf, rfl⟩

/-- `sanitizeDuration` always produces a finite value. -/
theorem sanitizeDuration_finite (v : DVal) :
    ∃ q : ℚ, sanitizeDuration v = .fin q := by
  cases v with
  | fin q =>
      rw [sanitizeDuration]
      split
      · exact ⟨0, rfl⟩
      · exact ⟨q, rfl⟩
  | nan => exact ⟨0, rfl⟩
  | inf b => exact ⟨0, rfl⟩

/-- When the sanitized duration is not at most 0 (the guard used throughout
`updateEdl` and the mappers), the underlying value is finite and at least
`kMinDuration`, and sanitization left it unchanged. -/
theorem sanitizeDuration_pos (v : DVal)
    (h : ¬ (sanitizeDuration v).ble (.fin 0) = true) :
    ∃ q : ℚ, v = .fin q ∧ kMinDuration ≤ q ∧ sanitizeDuration v = .fin q := by
  cases v with
  | fin q =>
      rw [sanitizeDuration] at h ⊢
      by_cases hq : q < kMinDuration
      · rw [if_pos hq] at h
        simp at h
      · rw [if_neg hq] at h ⊢
        exact ⟨q, rfl, not_lt.1 hq, rfl⟩
  | nan => simp [sanitizeDuration] at h
  | inf b => simp [sanitizeDuration] at h

/-- An IEEE subtraction is finite only when both operands are. -/
theorem DVal.sub_eq_fin (x y : DVal) (w : ℚ) (h : x.sub y = .fin w) :
    ∃ qx qy : ℚ, x = .fin qx ∧ y = .fin qy ∧ w = qx - qy := by
  cases x with
  | nan => simp [DVal.sub, DVal.add] at h
  | inf b =>
      cases y <;> simp [DVal.sub, DVal.add, DVal.neg] at h
      split at h <;> simp_all
  | fin qx =>
      cases y with
      | nan => simp [DVal.sub, DVal.add, DVal.neg] at h
      | inf c => simp [DVal.sub, DVal.add, DVal.neg] at h
      | fin qy =>
          refine ⟨qx, qy, rfl, rfl, ?_⟩
          rw [DVal.sub_fin] at h
          exact (DVal.fin.injEq _ _ ▸ h).symm

/-- `clampV` of a finite value between finite bounds is finite. -/
theorem DVal.clampV_finite (v : ℚ) (lo hi : ℚ) :
    ∃ q : ℚ, DVal.clampV (.fin v) (.fin lo) (.fin hi) = .fin q := by
  rw [DVal.clampV]
  split
  · exact ⟨lo, rfl⟩
  · split
    · exact ⟨hi, rfl⟩
    · exact ⟨v, rfl⟩

/-- `clampV` between 0 and 1 is the identity on values already in `[0, 1]`. -/
theorem DVal.clampV_id (v : ℚ) (h0 : 0 ≤ v) (h1 : v ≤ 1) :
    DVal.clampV (.fin v) (.fin 0) (.fin 1) = .fin v := by
  rw [DVal.clampV]
  rw [if_neg (by simp [not_lt.2 h0]), if_neg (by simp [not_lt.2 h1])]

/-! Fixture: the two-clip reorder timeline of spec scenario 2. Edited
`[0, 0.4)` plays original `[0.6, 1.0)`, edited `[0.4, 0.8)` plays original
`[0, 0.4)`. -/

/-- Flattened segments of the reordered two-clip timeline. -/
def reorderSegments : List Segment :=
  [ { type := "word", start := .fin 0, end_ := .fin (2/5), dur := .fin (2/5),
      originalStart := .fin (3/5), originalEnd := .fin 1 },
    { type := "word", start := .fin (2/5), end_ := .fin (4/5), dur := .fin (2/5),
      originalStart := .fin 0, originalEnd := .fin (2/5) } ]

/-- A loaded backend with the reorder timeline installed. -/
def reorderState : BackendState :=
  { id := "m", readerLoaded := true, durationSec := .fin 1, segments := reorderSegments }

/-- C1: on the reorder timeline, `seek(0.2)` computes
`editedToOriginal(0.2) = 0.8` and sets the transport original position to
0.8, and `seek(0.5)` computes `editedToOriginal(0.5) = 0.1` and sets the
transport original position to 0.1. -/
theorem seek_reorder_mapping :
    editedToOriginal reorderSegments (.fin (1/5)) = .fin (4/5) ∧
    (Backend.seek reorderState (.fin (1/5))).1.transportPos = .fin (4/5) ∧
    editedToOriginal reorderSegments (.fin (1/2)) = .fin (1/10) ∧
    (Backend.seek reorderState (.fin (1/2))).1.transportPos = .fin (1/10) := by
  refine ⟨?_, ?_, ?_, ?_⟩ <;>
    norm_num [Backend.seek, reorderState, editedToOriginal, editedToOriginalGo,
      reorderSegments, segOs, segOe, Segment.hasOriginal, sanitizeTime, sanitizeDuration,
      DVal.clampV, DVal.div_fin, kMinDuration, kMaxReasonableTime]

/-- C3: `stop` on the reorder timeline sets the transport original position
to 0 but the emitted `position` event carries
`originalSec = editedToOriginal(0) = 0.6`: the emitter reports the
edited-playhead round-trip, not the transport position. -/
theorem stop_position_event_not_transport :
    (Backend.stop reorderState).1.transportPos = .fin 0 ∧
    (Backend.stop reorderState).2 =
      [.state "m" false, .position "m" (.fin 0) (.fin (3/5))] ∧
    DVal.fin (3/5) ≠ .fin 0 := by
  refine ⟨?_, ?_, ?_⟩
  · norm_num [Backend.stop, reorderState]
  · norm_num [Backend.stop, reorderState, emitPositionFromTransport, editedToOriginal,
      editedToOriginalGo, reorderSegments, segOs, segOe, Segment.hasOriginal,
      sanitizeTime, sanitizeDuration, DVal.clampV, DVal.div_fin, kMinDuration,
      kMaxReasonableTime]
  · simp only [ne_eq, DVal.fin.injEq]
    norm_num

/-- C7: `setRate` sanitizes to finite (1.0 on NaN, infinity or non-positive
input) then clamps to `[0.25, 4]` before setting the resampling ratio;
`setVolume` sanitizes to finite (1.0 on NaN or infinity) then clamps to
`[0, 2]` before setting the gain; in particular `setRate(NaN) = 1`,
`setRate(10) = 4` and `setVolume(-1) = 0`. -/
theorem setRate_setVolume_sanitize :
    setRateValue .nan = 1 ∧
    (∀ b, setRateValue (.inf b) = 1) ∧
    (∀ q : ℚ, q ≤ 0 → setRateValue (.fin q) = 1) ∧
    (∀ q : ℚ, 0 < q → setRateValue (.fin q) = min 4 (max (1/4) q)) ∧
    setRateValue (.fin 10) = 4 ∧
    setVolumeValue .nan = 1 ∧
    (∀ b, setVolumeValue (.inf b) = 1) ∧
    (∀ q : ℚ, setVolumeValue (.fin q) = min 2 (max 0 q)) ∧
    setVolumeValue (.fin (-1)) = 0 ∧
    (∀ st r, (Backend.setRate st r).1.resamplingRatio = .fin (setRateValue r)) ∧
    (∀ st v, (Backend.setVolume st v).1.gain = .fin (setVolumeValue v)) := by
  refine ⟨by norm_num [setRateValue], fun b => by norm_num [setRateValue],
    fun q hq => ?_, fun q hq => ?_, by norm_num [setRateValue],
    by norm_num [setVolumeValue], fun b => by norm_num [setVolumeValue],
    fun q => ?_, by norm_num [setVolumeValue],
    fun st r => by simp [Backend.setRate], fun st v => by simp [Backend.setVolume]⟩
  · simp only [setRateValue, if_pos hq]
    norm_num
  · simp only [setRateValue, if_neg (not_le.2 hq), min_def, max_def]
    split_ifs <;> linarith
  · simp only [setVolumeValue, min_def, max_def]
    split_ifs <;> linarith

/-- Witness for C7: the sanitization theorem applied at rate -2 (non-positive)
and rate 1/2 (positive, inside the clamp range). -/
theorem setRate_setVolume_sanitize_witness :
    setRateValue (.fin (-2)) = 1 ∧ setRateValue (.fin (1/2)) = min 4 (max (1/4) (1/2)) :=
  ⟨setRate_setVolume_sanitize.2.2.1 (-2) (by norm_num),
   setRate_setVolume_sanitize.2.2.2.1 (1/2) (by norm_num)⟩

/-- C8: `play`, `pause`, `stop` and `seek` issued with no audio loaded emit
an error event and leave the whole backend state unchanged. -/
theorem noAudio_ops_unchanged (st : BackendState) (h : st.readerLoaded = false) :
    Backend.play st = (st, [.error "No audio loaded"]) ∧
    Backend.pause st = (st, [.error "No audio loaded"]) ∧
    Backend.stop st = (st, [.error "No audio loaded"]) ∧
    ∀ t, Backend.seek st t = (st, [.error "No audio loaded"]) := by
  refine ⟨?_, ?_, ?_, fun t => ?_⟩ <;>
    simp [Backend.play, Backend.pause, Backend.stop, Backend.seek, h]

/-- Witness for C8: the unloaded default state rejects `play` unchanged. -/
theorem noAudio_ops_unchanged_witness :
    Backend.play {} = ({}, [.error "No audio loaded"]) :=
  (noAudio_ops_unchanged {} rfl).1

@[simp] theorem DVal.abs_fin (q : ℚ) : (DVal.fin q).abs = .fin |q| := rfl

/-- The gap-match count over a whole list equals the count of `true` in the
adjacent-pair `zipWith`. -/
theorem countGapMatches_eq_zipWith (l : List Clip) :
    countGapMatches l = (List.zipWith gapMatch l l.tail).count true := by
  induction l with
  | nil => rfl
  | cons a rest ih =>
      cases rest with
      | nil => rfl
      | cons b rest2 =>
          rw [countGapMatches]
          rw [ih]
          simp only [List.tail_cons, List.zipWith_cons_cons, List.count_cons]
          cases hg : gapMatch a b <;> simp [hg, Nat.add_comm]

/-- Six clips whose first three adjacent gaps are 1 s and whose fourth and
fifth adjacent gaps are 0: two of the first five gaps are below 10 ms, but
only one of the first four is. -/
def fiveGapClips : List Clip :=
  [ { startSec := .fin 0, endSec := .fin 1 },
    { startSec := .fin 2, endSec := .fin 3 },
    { startSec := .fin 4, endSec := .fin 5 },
    { startSec := .fin 6, endSec := .fin 7 },
    { startSec := .fin 7, endSec := .fin 8 },
    { startSec := .fin 8, endSec := .fin 9 } ]

/-- Counterexample to C5: on `fiveGapClips` at least two of the first five
adjacent clip gaps are below 10 ms (gaps four and five are 0), yet
`updateEdl` derives the mode `standard`, because the detection loop only
inspects the four adjacent gaps with index `i < 5`. -/
theorem contiguous_five_gap_rule_counterexample :
    1 < fiveGapClips.length ∧
    2 ≤ (List.zipWith gapMatch (fiveGapClips.take 6) (fiveGapClips.take 6).tail).count true ∧
    updateEdlContiguous fiveGapClips = false := by
  refine ⟨by norm_num [fiveGapClips], ?_, ?_⟩
  · norm_num [fiveGapClips, gapMatch, List.count_cons]
  · norm_num [updateEdlContiguous, fiveGapClips, countGapMatches, gapMatch]

/-- C5 amended: the derived mode is `contiguous` iff there is more than one
clip and at least two of the adjacent clip gaps within the first five clips
(the first four gaps) have absolute size below 10 ms. -/
theorem contiguous_first_four_gap_rule (clips : List Clip) :
    updateEdlContiguous clips = true ↔
      1 < clips.length ∧
      2 ≤ (List.zipWith gapMatch (clips.take 5) (clips.take 5).tail).count true := by
  rw [updateEdlContiguous, countGapMatches_eq_zipWith]
  simp

/-- C4: when `updateEdl` derives the contiguous mode from a (necessarily
non-empty) clips payload but the flattening yields no usable segment, the
engine falls back to standard mode and installs a single full-file identity
segment spanning `[0, duration)`. -/
theorem contiguous_empty_fallback (st : BackendState) (clips : List Clip) (rev : Int)
    (d : ℚ) (hdur : st.durationSec = .fin d) (hd : 0 < d)
    (hcontig : updateEdlContiguous clips = true)
    (hempty : updateEdlSegments clips = []) :
    1 < clips.length ∧
    (Backend.updateEdl st clips rev).1.segments = [fullFileSegment (.fin d)] ∧
    (Backend.updateEdl st clips rev).1.isContiguousTimeline = false := by
  have hlen : 1 < clips.length := by
    rw [updateEdlContiguous] at hcontig
    simp only [Bool.and_eq_true, decide_eq_true_eq] at hcontig
    exact hcontig.1
  have happ : updateEdlApply clips (.fin d) = ([fullFileSegment (.fin d)], false) := by
    rw [updateEdlApply, hempty, hcontig]
    simp only [List.isEmpty_nil, Bool.and_self, if_pos]
    rw [if_pos (by simpa [DVal.blt] using hd)]
  refine ⟨hlen, ?_, ?_⟩ <;> simp [Backend.updateEdl, hdur, happ]

/-- Three abutting clips whose only segments have zero duration: contiguous
detection fires, but the flattening drops every segment. -/
def fallbackClips : List Clip :=
  [ { startSec := .fin 0, endSec := .fin 1,
      segments := [{ start := .fin 0, end_ := .fin 0, dur := .fin 0 }] },
    { startSec := .fin 1, endSec := .fin 2,
      segments := [{ start := .fin 0, end_ := .fin 0, dur := .fin 0 }] },
    { startSec := .fin 2, endSec := .fin 3,
      segments := [{ start := .fin 0, end_ := .fin 0, dur := .fin 0 }] } ]

/-- Witness for C4: on `fallbackClips` with a 60 s file, `updateEdl` installs
the single full-file identity segment and leaves contiguous mode off. -/
theorem contiguous_empty_fallback_witness :
    1 < fallbackClips.length ∧
    (Backend.updateEdl { id := "m", durationSec := .fin 60 } fallbackClips 7).1.segments =
      [fullFileSegment (.fin 60)] ∧
    (Backend.updateEdl { id := "m", durationSec := .fin 60 } fallbackClips 7).1.isContiguousTimeline =
      false :=
  contiguous_empty_fallback _ _ 7 60 rfl (by norm_num)
    (by norm_num [updateEdlContiguous, fallbackClips, countGapMatches, gapMatch])
    (by norm_num [updateEdlSegments, fallbackClips, flattenClip, flattenSeg, sortSegments,
      sanitizeTime, sanitizeDuration, kMinDuration, kMaxReasonableTime, List.filterMap])

theorem mem_insertSeg (x s : Segment) (l : List Segment) :
    x ∈ insertSeg s l ↔ x = s ∨ x ∈ l := by
  induction l with
  | nil => simp [insertSeg]
  | cons t rest ih =>
      rw [insertSeg]
      split
      · simp only [List.mem_cons, ih]
        tauto
      · simp only [List.mem_cons]

theorem mem_sortSegments (x : Segment) (l : List Segment) :
    x ∈ sortSegments l ↔ x ∈ l := by
  induction l with
  | nil => simp [sortSegments]
  | cons s rest ih => simp [sortSegments, mem_insertSeg, ih]

/-- The final original-interval guard (main.cpp lines 988-991) yields a
finite pair with spread at least `kMinDuration` for any candidate pair,
provided the fallback edited interval has that property. -/
theorem finalGuard_usable (sst sett : DVal) (qs qe : ℚ) (hs : sst = .fin qs)
    (he : sett = .fin qe) (hk : kMinDuration ≤ qe - qs) (op : DVal × DVal) :
    ∃ a b : ℚ,
      (if (sanitizeDuration (op.2.sub op.1)).ble (.fin 0) then (sst, sett) else op) =
        (.fin a, .fin b) ∧ kMinDuration ≤ b - a := by
  by_cases hcond : (sanitizeDuration (op.2.sub op.1)).ble (.fin 0) = true
  · rw [if_pos hcond]
    exact ⟨qs, qe, by rw [hs, he], hk⟩
  · rw [if_neg hcond]
    obtain ⟨w, hsub2, hw2, _⟩ := sanitizeDuration_pos _ hcond
    obtain ⟨b2, a2, hb2, ha2, hww⟩ := DVal.sub_eq_fin _ _ _ hsub2
    refine ⟨a2, b2, ?_, by rw [← hww]; exact hw2⟩
    rw [← ha2, ← hb2]

theorem flattenSegOriginals_usable (ctd : DVal) (cho : Bool) (cos cod : DVal)
    (seg : Segment) (sst sett std : DVal)
    (hg : ¬ (sanitizeDuration (sett.sub sst)).ble (.fin 0) = true) :
    ∃ a b : ℚ, flattenSegOriginals ctd cho cos cod seg sst sett std = (.fin a, .fin b) ∧
      kMinDuration ≤ b - a := by
  obtain ⟨q, hsub, hq, hsan⟩ := sanitizeDuration_pos _ hg
  obtain ⟨qe, qs, he, hs, hw⟩ := DVal.sub_eq_fin _ _ _ hsub
  exact finalGuard_usable sst sett qs qe hs he (by rw [← hw]; exact hq) _

/-- Every segment produced by `flattenSeg` has a finite edited duration of at
least `kMinDuration` and a finite original interval of spread at least
`kMinDuration`. -/
theorem flattenSeg_some (cts ctd : DVal) (cho : Bool) (cos cod : DVal) (seg s : Segment)
    (h : flattenSeg cts ctd cho cos cod seg = some s) :
    (∃ qd : ℚ, s.dur = .fin qd ∧ kMinDuration ≤ qd) ∧
    (∃ a b : ℚ, s.originalStart = .fin a ∧ s.originalEnd = .fin b ∧ kMinDuration ≤ b - a) := by
  simp only [flattenSeg] at h
  split at h
  · exact absurd h (by simp)
  · split at h
    · exact absurd h (by simp)
    · next hg2 =>
        obtain ⟨q, hsub, hq, hsan⟩ := sanitizeDuration_pos _ hg2
        obtain ⟨a, b, hab, hk⟩ := flattenSegOriginals_usable ctd cho cos cod seg _ _ _ hg2
        rw [Option.some.injEq] at h
        subst h
        refine ⟨⟨q, hsan, hq⟩, a, b, ?_, ?_, hk⟩
        · show (flattenSegOriginals _ _ _ _ _ _ _ _).1 = _
          rw [hab]
        · show (flattenSegOriginals _ _ _ _ _ _ _ _).2 = _
          rw [hab]

theorem mem_flattenClip (s : Segment) (c : Clip) (h : s ∈ flattenClip c) :
    ∃ cts ctd cho cos cod seg, flattenSeg cts ctd cho cos cod seg = some s := by
  simp only [flattenClip] at h
  split at h
  · exact absurd h (by simp)
  · rw [List.mem_filterMap] at h
    obtain ⟨seg, _, hsome⟩ := h
    exact ⟨_, _, _, _, _, seg, hsome⟩

/-- Any segment of the list installed by `updateEdl` is either the
contiguous-fallback full-file segment (with a positive duration check) or
the output of `flattenSeg` on some ingested segment. -/
theorem mem_updateEdlApply (clips : List Clip) (dv : DVal) (s : Segment)
    (h : s ∈ (updateEdlApply clips dv).1) :
    (s = fullFileSegment dv ∧ (DVal.fin 0).blt dv = true) ∨
    ∃ cts ctd cho cos cod seg, flattenSeg cts ctd cho cos cod seg = some s := by
  simp only [updateEdlApply] at h
  split at h
  · split at h
    · next hpos =>
        left
        simp only [List.mem_singleton] at h
        exact ⟨h, hpos⟩
    · exact absurd h (by simp)
  · right
    simp only at h
    rw [updateEdlSegments, mem_sortSegments, List.mem_flatten] at h
    obtain ⟨t, ht, hst⟩ := h
    rw [List.mem_map] at ht
    obtain ⟨c, _, rfl⟩ := ht
    exact mem_flattenClip s c hst

/-- C6 amended: a raw segment whose `startSec` or `endSec` is NaN, or whose
sanitized edited duration is below 100 µs, is dropped at ingestion; every
parsed segment and (when the loaded duration is not in `(0, 100 µs)`) every
segment installed by `updateEdl` has an edited duration of at least 100 µs.
Infinite `startSec`/`endSec` values are coerced by the sanitization
fallbacks instead of being dropped. -/
theorem segment_drop_and_min_duration :
    (∀ rs : RawSeg, rs.startSec = .nan ∨ rs.endSec = .nan → parseSegment rs = none) ∧
    (∀ rs : RawSeg, ∀ s : Segment, parseSegment rs = some s →
        ∃ qd : ℚ, s.dur = .fin qd ∧ kMinDuration ≤ qd) ∧
    (∀ (clips : List Clip) (d : ℚ), d ≤ 0 ∨ kMinDuration ≤ d →
        ∀ s ∈ (updateEdlApply clips (.fin d)).1,
          ∃ qd : ℚ, s.dur = .fin qd ∧ kMinDuration ≤ qd) := by
  refine ⟨fun rs h => ?_, fun rs s h => ?_, fun clips d hd s hs => ?_⟩
  · rcases h with h | h <;> simp [parseSegment, h, DVal.beq]
  · simp only [parseSegment] at h
    split at h
    · exact absurd h (by simp)
    · split at h
      · exact absurd h (by simp)
      · next hg =>
          obtain ⟨q, _, hq, hsan⟩ := sanitizeDuration_pos _ hg
          rw [Option.some.injEq] at h
          subst h
          exact ⟨q, hsan, hq⟩
  · rcases mem_updateEdlApply clips _ s hs with ⟨rfl, hblt⟩ | ⟨cts, ctd, cho, cos, cod, seg, hsome⟩
    · have hdpos : 0 < d := by simpa [DVal.blt] using hblt
      rcases hd with hle | hk
      · exact absurd hdpos (not_lt.2 hle)
      · exact ⟨d, rfl, hk⟩
    · exact (flattenSeg_some _ _ _ _ _ _ _ hsome).1

/-- Payload with a single clip whose only segment has an infinite
`startSec`: the spec says non-finite times cause the segment to be dropped. -/
def infStartPayload : List RawClip :=
  [ { startSec := .fin 0, endSec := .fin 10,
      segments := [{ type := "word", startSec := DVal.inf true, endSec := .fin 5 }] } ]

/-- Counterexample to C6: the only supplied segment has a non-finite
(`+infinity`) `startSec`, yet the installed snapshot is not empty — the
infinity is coerced to the `sanitizeTime` fallback 0 rather than dropped
(only NaN is dropped by the `x == x` self-test). -/
theorem nonfinite_start_not_dropped :
    (DVal.inf true).isFinite = false ∧
    updateEdlApply (parseClips infStartPayload) (.fin 60) =
      ([{ type := "word", start := .fin 0, end_ := .fin 5, dur := .fin 5, text := "",
          originalStart := .fin 0, originalEnd := .fin 5 }], false) := by
  refine ⟨rfl, ?_⟩
  norm_num [updateEdlApply, updateEdlSegments, updateEdlContiguous, countGapMatches,
    flattenClip, flattenSeg, flattenSegOriginals, sortSegments, insertSeg, parseClips,
    parseClip, parseSegment, infStartPayload, sanitizeTime, sanitizeDuration, DVal.beq,
    Segment.hasOriginal, Clip.hasOriginal, kMinDuration, kMaxReasonableTime,
    List.filterMap, DVal.ble, DVal.blt, DVal.add, DVal.sub, DVal.neg]

/-- Witness for C6: a NaN-start segment is dropped, and the snapshot built
from `infStartPayload` with a 60 s file has only segments of duration at
least 100 µs. -/
theorem segment_drop_and_min_duration_witness :
    parseSegment { type := "word", startSec := .nan, endSec := .fin 1 } = none ∧
    ∀ s ∈ (updateEdlApply (parseClips infStartPayload) (.fin 60)).1,
      ∃ qd : ℚ, s.dur = .fin qd ∧ kMinDuration ≤ qd :=
  ⟨segment_drop_and_min_duration.1 _ (Or.inl rfl),
   segment_drop_and_min_duration.2.2 _ 60 (Or.inr (by norm_num [kMinDuration]))⟩

/-- C10 amended: when the loaded duration is not in `(0, 100 µs)`, every
segment installed by `updateEdl` carries a finite original interval whose
spread is at least 100 µs (falling back to the segment's edited interval
when the supplied or clip-interpolated original interval is unusable). The
contiguous fallback's full-file segment inherits `durationSec` as its
original spread, which is why sub-100 µs durations are excluded. -/
theorem snapshot_originals_usable (clips : List Clip) (d : ℚ)
    (hd : d ≤ 0 ∨ kMinDuration ≤ d) :
    ∀ s ∈ (updateEdlApply clips (.fin d)).1,
      ∃ a b : ℚ, s.originalStart = .fin a ∧ s.originalEnd = .fin b ∧
        kMinDuration ≤ b - a := by
  intro s hs
  rcases mem_updateEdlApply clips _ s hs with ⟨rfl, hblt⟩ | ⟨cts, ctd, cho, cos, cod, seg, hsome⟩
  · have hdpos : 0 < d := by simpa [DVal.blt] using hblt
    rcases hd with hle | hk
    · exact absurd hdpos (not_lt.2 hle)
    · exact ⟨0, d, rfl, rfl, by simpa using hk⟩
  · exact (flattenSeg_some _ _ _ _ _ _ _ hsome).2

/-- Payload of three gap-aligned clips near the 24 h cap whose segments land
past 24 h after adding the clip start, so the flattening drops them all and
the contiguous fallback fires. -/
def tinyDurationPayload : List RawClip :=
  [ { startSec := .fin 86200, endSec := .fin 86300,
      segments := [{ type := "word", startSec := .fin 300, endSec := .fin 400 }] },
    { startSec := .fin 86300, endSec := .fin 86350,
      segments := [{ type := "word", startSec := .fin 300, endSec := .fin 400 }] },
    { startSec := .fin 86350, endSec := .fin 86400,
      segments := [{ type := "word", startSec := .fin 300, endSec := .fin 400 }] } ]

/-- Counterexample to C10: with a loaded duration of 50 µs, the contiguous
fallback installs a full-file segment whose original interval spreads only
50 µs, below the 100 µs usability threshold. -/
theorem fallback_small_original :
    updateEdlApply (parseClips tinyDurationPayload) (.fin (1/20000)) =
      ([fullFileSegment (.fin (1/20000))], false) ∧
    (fullFileSegment (.fin (1/20000))).originalStart = .fin 0 ∧
    (fullFileSegment (.fin (1/20000))).originalEnd = .fin (1/20000) ∧
    ¬ kMinDuration ≤ (1/20000 : ℚ) - 0 := by
  refine ⟨?_, rfl, rfl, by norm_num [kMinDuration]⟩
  norm_num [updateEdlApply, updateEdlSegments, updateEdlContiguous, countGapMatches,
    flattenClip, flattenSeg, flattenSegOriginals, sortSegments, insertSeg, parseClips,
    parseClip, parseSegment, tinyDurationPayload, sanitizeTime, sanitizeDuration, DVal.beq,
    Segment.hasOriginal, Clip.hasOriginal, kMinDuration, kMaxReasonableTime,
    List.filterMap, DVal.ble, DVal.blt, DVal.add, DVal.sub, DVal.neg, gapMatch,
    fullFileSegment]

/-- Witness for C10: the one segment of the snapshot built from
`infStartPayload` with a 1 s file has a usable original interval. -/
theorem snapshot_originals_usable_witness :
    ∃ a b : ℚ,
      ({ type := "word", start := .fin 0, end_ := .fin 5, dur := .fin 5, text := "",
         originalStart := .fin 0, originalEnd := .fin 5 } : Segment).originalStart =
        .fin a ∧
      ({ type := "word", start := .fin 0, end_ := .fin 5, dur := .fin 5, text := "",
         originalStart := .fin 0, originalEnd := .fin 5 } : Segment).originalEnd =
        .fin b ∧
      kMinDuration ≤ b - a :=
  snapshot_originals_usable (parseClips infStartPayload) 1
    (Or.inr (by norm_num [kMinDuration])) _
    (by
      norm_num [updateEdlApply, updateEdlSegments, updateEdlContiguous, countGapMatches,
        flattenClip, flattenSeg, flattenSegOriginals, sortSegments, insertSeg, parseClips,
        parseClip, parseSegment, infStartPayload, sanitizeTime, sanitizeDuration, DVal.beq,
        Segment.hasOriginal, Clip.hasOriginal, kMinDuration, kMaxReasonableTime,
        List.filterMap, DVal.ble, DVal.blt, DVal.add, DVal.sub, DVal.neg])

theorem DVal.isFinite_iff (v : DVal) : v.isFinite = true ↔ ∃ q : ℚ, v = .fin q := by
  cases v <;> simp [DVal.isFinite]

theorem getLastD_mem_cons {α : Type} (l : List α) (d : α) : l.getLastD d ∈ d :: l := by
  induction l generalizing d with
  | nil => simp
  | cons a l ih =>
      rw [List.getLastD_cons]
      exact List.mem_cons_of_mem d (ih a)

theorem e2oFallback_finite (last : Segment) (h : last.end_.isFinite = true) :
    (e2oFallback last).isFinite = true := by
  obtain ⟨qe, hqe⟩ := (DVal.isFinite_iff _).1 h
  rw [e2oFallback]
  split
  · rw [hqe]
    obtain ⟨q, hq⟩ := sanitizeTime_finite last.originalEnd qe
    rw [hq]
    rfl
  · obtain ⟨q, hq⟩ := sanitizeTime_finite last.end_ 0
    rw [hq]
    rfl

theorem kMinDuration_pos : 0 < kMinDuration := by norm_num [kMinDuration]

/-- The guard shared by both mapping loops: when it is false, the sanitized
original and edited durations are finite values of at least `kMinDuration`
and the sanitized original bounds are finite. -/
theorem mapperGuard_false (s : Segment)
    (hg : ¬ ((sanitizeDuration ((segOe s).sub (segOs s))).ble (.fin 0) ||
            (sanitizeDuration s.dur).ble (.fin 0)) = true) :
    ∃ qos qoe qod qed : ℚ,
      segOs s = .fin qos ∧ segOe s = .fin qoe ∧
      sanitizeDuration ((segOe s).sub (segOs s)) = .fin qod ∧ kMinDuration ≤ qod ∧
      sanitizeDuration s.dur = .fin qed ∧ kMinDuration ≤ qed := by
  rw [Bool.or_eq_true] at hg
  push_neg at hg
  obtain ⟨q1, hsub, hq1, hsan1⟩ := sanitizeDuration_pos _ hg.1
  obtain ⟨q2, hdur, hq2, hsan2⟩ := sanitizeDuration_pos _ hg.2
  obtain ⟨qoe, qos, he, hs, _⟩ := DVal.sub_eq_fin _ _ _ hsub
  exact ⟨qos, qoe, q1, q2, hs, he, hsan1, hq1, hsan2, hq2⟩

theorem originalToEditedGo_finite (l : List Segment) (pos acc : DVal)
    (hpos : pos.isFinite = true) (hacc : acc.isFinite = true) :
    (originalToEditedGo l pos acc).isFinite = true := by
  induction l generalizing acc with
  | nil => exact hacc
  | cons s rest ih =>
      obtain ⟨qp, rfl⟩ := (DVal.isFinite_iff _).1 hpos
      obtain ⟨qa, rfl⟩ := (DVal.isFinite_iff _).1 hacc
      simp only [originalToEditedGo]
      split
      · exact ih _ hacc
      · next hg =>
          obtain ⟨qos, qoe, qod, qed, hs, he, hod, hkod, hed, hked⟩ :=
            mapperGuard_false s hg
          split
          · exact hacc
          · split
            · rw [hod, hed, hs, DVal.sub_fin,
                DVal.div_fin _ _ (lt_of_lt_of_le kMinDuration_pos hkod).ne']
              obtain ⟨r, hr⟩ := DVal.clampV_finite ((qp - qos) / qod) 0 1
              rw [hr, DVal.mul_fin, DVal.add_fin]
              rfl
            · rw [hed]
              exact ih _ (by rw [DVal.add_fin]; rfl)

theorem editedToOriginalGo_finite (last : Segment) (l : List Segment)
    (target acc : DVal) (hlast : (e2oFallback last).isFinite = true)
    (htarget : target.isFinite = true) (hacc : acc.isFinite = true) :
    (editedToOriginalGo last l target acc).isFinite = true := by
  induction l generalizing acc with
  | nil => exact hlast
  | cons s rest ih =>
      obtain ⟨qt, rfl⟩ := (DVal.isFinite_iff _).1 htarget
      obtain ⟨qa, rfl⟩ := (DVal.isFinite_iff _).1 hacc
      simp only [editedToOriginalGo]
      split
      · exact ih _ hacc
      · next hg =>
          obtain ⟨qos, qoe, qod, qed, hs, he, hod, hkod, hed, hked⟩ :=
            mapperGuard_false s hg
          split
          · rw [hod, hed, hs, DVal.sub_fin,
              DVal.div_fin _ _ (lt_of_lt_of_le kMinDuration_pos hked).ne']
            obtain ⟨r, hr⟩ := DVal.clampV_finite ((qt - qa) / qed) 0 1
            rw [hr, DVal.mul_fin, DVal.add_fin]
            rfl
          · rw [hed]
            exact ih _ (by rw [DVal.add_fin]; rfl)


/-- C9 amended: for every segment list and every double input (NaN,
infinities, negatives, beyond 24 h), `originalToEdited` always returns a
finite value, and `editedToOriginal` returns a finite value whenever every
segment's `end` field is finite (the past-the-end fallthrough returns the
raw `end` field of the last segment when its `originalEnd` is non-finite).
The results are not bounded by 24 h in general. -/
theorem mapping_total_finite (segs : List Segment) (x : DVal) :
    (originalToEdited segs x).isFinite = true ∧
    ((∀ s ∈ segs, s.end_.isFinite = true) → (editedToOriginal segs x).isFinite = true) := by
  constructor
  · cases segs with
    | nil =>
        simp only [originalToEdited]
        obtain ⟨q, hq⟩ := sanitizeTime_finite x 0
        rw [hq]
        rfl
    | cons s rest =>
        simp only [originalToEdited]
        obtain ⟨q, hq⟩ := sanitizeTime_finite x 0
        exact originalToEditedGo_finite _ _ _ (by rw [hq]; rfl) rfl
  · intro hend
    cases segs with
    | nil =>
        simp only [editedToOriginal]
        obtain ⟨q, hq⟩ := sanitizeTime_finite x 0
        rw [hq]
        rfl
    | cons s rest =>
        simp only [editedToOriginal]
        obtain ⟨q, hq⟩ := sanitizeTime_finite x 0
        have hmem : (s :: rest).getLastD s ∈ s :: rest := by
          rw [List.getLastD_cons]
          exact getLastD_mem_cons rest s
        exact editedToOriginalGo_finite _ _ _ _
          (e2oFallback_finite _ (hend _ hmem)) (by rw [hq]; rfl) rfl

/-- A single segment covering the whole 24 h range with identity originals. -/
def fullDaySegment : Segment :=
  { type := "word", start := .fin 0, end_ := .fin 86400, dur := .fin 86400,
    originalStart := .fin 0, originalEnd := .fin 86400 }

/-- Counterexample to C9: two stacked full-day identity segments make
`originalToEdited` return 172800 s (48 h) on the input 10^9 seconds — the
result is neither the sanitized input nor bounded by 86400 s. -/
theorem originalToEdited_exceeds_24h :
    originalToEdited [fullDaySegment, fullDaySegment] (.fin 1000000000) = .fin 172800 ∧
    ¬ (172800 : ℚ) ≤ 86400 := by
  constructor
  · norm_num [originalToEdited, originalToEditedGo, fullDaySegment, segOs, segOe,
      Segment.hasOriginal, sanitizeTime, sanitizeDuration, kMinDuration,
      kMaxReasonableTime, DVal.ble, DVal.blt, DVal.add, DVal.sub, DVal.neg]
  · norm_num

/-- Witness for C9: both mappers return finite values on the reorder
timeline at the input NaN. -/
theorem mapping_total_finite_witness :
    (originalToEdited reorderSegments .nan).isFinite = true ∧
    (editedToOriginal reorderSegments .nan).isFinite = true :=
  ⟨(mapping_total_finite reorderSegments .nan).1,
   (mapping_total_finite reorderSegments .nan).2 (by simp [reorderSegments])⟩

/-! Round-trip of the mappers on monotone (identity-mapped) timelines. -/

/-- Identity-mapped segment built from an edited interval: the original
interval equals the edited interval. -/
def mkIdSeg (p : ℚ × ℚ) : Segment :=
  { type := "word", start := .fin p.1, end_ := .fin p.2, dur := .fin (p.2 - p.1),
    originalStart := .fin p.1, originalEnd := .fin p.2 }

/-- Well-formed interval pair: nonnegative, within 24 h, of duration at
least `kMinDuration` (the ingestion invariants). -/
def NicePair (p : ℚ × ℚ) : Prop :=
  0 ≤ p.1 ∧ p.2 ≤ kMaxReasonableTime ∧ kMinDuration ≤ p.2 - p.1

/-- Total edited duration of a pair list. -/
def idTotal (l : List (ℚ × ℚ)) : ℚ := (l.map (fun p => p.2 - p.1)).sum

theorem NicePair.lt12 {p : ℚ × ℚ} (hp : NicePair p) : p.1 < p.2 := by
  have := kMinDuration_pos
  obtain ⟨h1, h2, h3⟩ := hp
  linarith

theorem NicePair.pos2 {p : ℚ × ℚ} (hp : NicePair p) : 0 < p.2 :=
  lt_of_le_of_lt hp.1 hp.lt12

theorem NicePair.le24_1 {p : ℚ × ℚ} (hp : NicePair p) : p.1 ≤ kMaxReasonableTime :=
  le_of_lt (lt_of_lt_of_le hp.lt12 hp.2.1)

theorem hasOriginal_mkIdSeg (p : ℚ × ℚ) (hp : NicePair p) :
    (mkIdSeg p).hasOriginal = true := by
  simp only [Segment.hasOriginal, mkIdSeg, Bool.and_eq_true, DVal.ble_fin]
  exact ⟨hp.1, le_of_lt hp.pos2⟩

theorem segOs_mkIdSeg (p : ℚ × ℚ) (hp : NicePair p) : segOs (mkIdSeg p) = .fin p.1 := by
  rw [segOs, if_pos (hasOriginal_mkIdSeg p hp)]
  exact sanitizeTime_id _ _ hp.1 hp.le24_1

theorem segOe_mkIdSeg (p : ℚ × ℚ) (hp : NicePair p) : segOe (mkIdSeg p) = .fin p.2 := by
  rw [segOe, if_pos (hasOriginal_mkIdSeg p hp)]
  exact sanitizeTime_id _ _ (le_of_lt hp.pos2) hp.2.1

theorem odur_mkIdSeg (p : ℚ × ℚ) (hp : NicePair p) :
    sanitizeDuration ((segOe (mkIdSeg p)).sub (segOs (mkIdSeg p))) = .fin (p.2 - p.1) := by
  rw [segOe_mkIdSeg p hp, segOs_mkIdSeg p hp, DVal.sub_fin]
  exact sanitizeDuration_id _ hp.2.2

theorem edur_mkIdSeg (p : ℚ × ℚ) (hp : NicePair p) :
    sanitizeDuration (mkIdSeg p).dur = .fin (p.2 - p.1) :=
  sanitizeDuration_id _ hp.2.2

theorem idGuard_false (p : ℚ × ℚ) (hp : NicePair p) :
    ¬ ((sanitizeDuration ((segOe (mkIdSeg p)).sub (segOs (mkIdSeg p)))).ble (.fin 0) ||
        (sanitizeDuration (mkIdSeg p).dur).ble (.fin 0)) = true := by
  rw [odur_mkIdSeg p hp, edur_mkIdSeg p hp]
  simp only [Bool.or_self, DVal.ble_fin]
  have := kMinDuration_pos
  have := hp.2.2
  intro hcon
  linarith

theorem e2oGo_cons_le (last : Segment) (p : ℚ × ℚ) (rest : List Segment) (e acc : ℚ)
    (hp : NicePair p) (hacc : acc ≤ e) (hle : e ≤ acc + (p.2 - p.1)) :
    editedToOriginalGo last (mkIdSeg p :: rest) (.fin e) (.fin acc) =
      .fin (p.1 + (e - acc)) := by
  have hd : 0 < p.2 - p.1 := lt_of_lt_of_le kMinDuration_pos hp.2.2
  simp only [editedToOriginalGo]
  rw [if_neg (idGuard_false p hp), odur_mkIdSeg p hp, edur_mkIdSeg p hp,
    segOs_mkIdSeg p hp, DVal.add_fin, if_pos (by rw [DVal.ble_fin]; exact hle),
    DVal.sub_fin, DVal.div_fin _ _ hd.ne',
    DVal.clampV_id _ (div_nonneg (by linarith) (le_of_lt hd)) (by rw [div_le_one hd]; linarith),
    DVal.mul_fin, div_mul_cancel₀ _ hd.ne', DVal.add_fin]

theorem e2oGo_cons_gt (last : Segment) (p : ℚ × ℚ) (rest : List Segment) (e acc : ℚ)
    (hp : NicePair p) (hgt : ¬ e ≤ acc + (p.2 - p.1)) :
    editedToOriginalGo last (mkIdSeg p :: rest) (.fin e) (.fin acc) =
      editedToOriginalGo last rest (.fin e) (.fin (acc + (p.2 - p.1))) := by
  simp only [editedToOriginalGo]
  rw [if_neg (idGuard_false p hp), edur_mkIdSeg p hp, DVal.add_fin,
    if_neg (by rw [DVal.ble_fin]; exact hgt)]

theorem o2eGo_cons_lt (p : ℚ × ℚ) (rest : List Segment) (pv acc : ℚ)
    (hp : NicePair p) (hlt : pv < p.1) :
    originalToEditedGo (mkIdSeg p :: rest) (.fin pv) (.fin acc) = .fin acc := by
  simp only [originalToEditedGo]
  rw [if_neg (idGuard_false p hp), segOs_mkIdSeg p hp,
    if_pos (by rw [DVal.blt_fin]; exact hlt)]

theorem o2eGo_cons_mid (p : ℚ × ℚ) (rest : List Segment) (pv acc : ℚ)
    (hp : NicePair p) (h1 : p.1 ≤ pv) (h2 : pv < p.2) :
    originalToEditedGo (mkIdSeg p :: rest) (.fin pv) (.fin acc) =
      .fin (acc + (pv - p.1)) := by
  have hd : 0 < p.2 - p.1 := lt_of_lt_of_le kMinDuration_pos hp.2.2
  simp only [originalToEditedGo]
  rw [if_neg (idGuard_false p hp), odur_mkIdSeg p hp, edur_mkIdSeg p hp,
    segOs_mkIdSeg p hp, if_neg (by rw [DVal.blt_fin]; exact not_lt.2 h1), DVal.add_fin,
    if_pos (by rw [DVal.blt_fin]; linarith), DVal.sub_fin,
    DVal.div_fin _ _ hd.ne',
    DVal.clampV_id _ (div_nonneg (by linarith) (le_of_lt hd)) (by rw [div_le_one hd]; linarith),
    DVal.mul_fin, div_mul_cancel₀ _ hd.ne', DVal.add_fin]

theorem o2eGo_cons_ge (p : ℚ × ℚ) (rest : List Segment) (pv acc : ℚ)
    (hp : NicePair p) (hge : p.2 ≤ pv) :
    originalToEditedGo (mkIdSeg p :: rest) (.fin pv) (.fin acc) =
      originalToEditedGo rest (.fin pv) (.fin (acc + (p.2 - p.1))) := by
  have h1 : p.1 < p.2 := hp.lt12
  simp only [originalToEditedGo]
  rw [if_neg (idGuard_false p hp), odur_mkIdSeg p hp, edur_mkIdSeg p hp,
    segOs_mkIdSeg p hp, if_neg (by rw [DVal.blt_fin]; linarith), DVal.add_fin,
    if_neg (by rw [DVal.blt_fin]; intro hcon; linarith), DVal.add_fin]

theorem getLastD_map {α β : Type} (f : α → β) :
    ∀ (l : List α) (d : α), (l.map f).getLastD (f d) = f (l.getLastD d) := by
  intro l
  induction l with
  | nil => intro d; rfl
  | cons a l ih =>
      intro d
      rw [List.map_cons, List.getLastD_cons, List.getLastD_cons, ih]

theorem e2oFallback_mkIdSeg (p : ℚ × ℚ) (hp : NicePair p) :
    e2oFallback (mkIdSeg p) = .fin p.2 := by
  rw [e2oFallback, if_pos (hasOriginal_mkIdSeg p hp)]
  exact sanitizeTime_id _ _ (le_of_lt hp.pos2) hp.2.1

theorem nice_chain_lb (p : ℚ × ℚ) (rest : List (ℚ × ℚ))
    (hn : ∀ q ∈ rest, NicePair q)
    (hc : List.Chain' (fun x y => x.2 ≤ y.1) (p :: rest)) :
    ∀ q ∈ rest, p.2 ≤ q.1 := by
  induction rest generalizing p with
  | nil => simp
  | cons q rest2 ih =>
      have h1 : p.2 ≤ q.1 := (List.chain'_cons.1 hc).1
      have hc2 := (List.chain'_cons.1 hc).2
      intro r hr
      rcases List.mem_cons.1 hr with rfl | hr2
      · exact h1
      · have hq : NicePair q := hn q (List.mem_cons_self q rest2)
        have h2 := ih q (fun x hx => hn x (List.mem_cons_of_mem q hx)) hc2 r hr2
        linarith [hq.lt12]

theorem nice_chain_ub :
    ∀ (l : List (ℚ × ℚ)) (d : ℚ × ℚ), (∀ p ∈ d :: l, NicePair p) →
      List.Chain' (fun x y => x.2 ≤ y.1) (d :: l) →
      ∀ p ∈ d :: l, p.2 ≤ (l.getLastD d).2 := by
  intro l
  induction l with
  | nil =>
      intro d _ _ p hp
      rw [List.mem_singleton] at hp
      subst hp
      exact le_refl _
  | cons q rest ih =>
      intro d hn hc p hp
      have h1 : d.2 ≤ q.1 := (List.chain'_cons.1 hc).1
      have hc2 := (List.chain'_cons.1 hc).2
      have hn2 : ∀ x ∈ q :: rest, NicePair x :=
        fun x hx => hn x (List.mem_cons_of_mem d hx)
      rw [List.getLastD_cons]
      rcases List.mem_cons.1 hp with rfl | hp2
      · have hq := hn2 q (List.mem_cons_self q rest)
        have h2 := ih q hn2 hc2 q (List.mem_cons_self q rest)
        linarith [hq.lt12]
      · exact ih q hn2 hc2 p hp2

theorem idTotal_cons (p : ℚ × ℚ) (l : List (ℚ × ℚ)) :
    idTotal (p :: l) = (p.2 - p.1) + idTotal l := by
  simp [idTotal]

theorem idTotal_le_last :
    ∀ (l : List (ℚ × ℚ)) (d : ℚ × ℚ), (∀ p ∈ d :: l, NicePair p) →
      List.Chain' (fun x y => x.2 ≤ y.1) (d :: l) →
      d.1 + idTotal (d :: l) ≤ (l.getLastD d).2 := by
  intro l
  induction l with
  | nil =>
      intro d _ _
      simp [idTotal]
  | cons q rest ih =>
      intro d hn hc
      rw [List.getLastD_cons, idTotal_cons]
      have h1 : d.2 ≤ q.1 := (List.chain'_cons.1 hc).1
      have h2 := ih q (fun x hx => hn x (List.mem_cons_of_mem d hx))
        (List.chain'_cons.1 hc).2
      rw [idTotal_cons] at h2
      rw [idTotal_cons]
      linarith

/-- On an identity-mapped, sorted, well-formed suffix the two mapping loops
are mutually inverse: what `editedToOriginal` computes for an accumulated
edited time `e` is mapped back to `e` by `originalToEdited`, and the
computed original position is bounded below by any lower bound of the
suffix and above by 24 h. -/
theorem roundtripAux (last : Segment) (bl : ℚ)
    (hfall : e2oFallback last = .fin bl) (hbl0 : 0 ≤ bl)
    (hbl24 : bl ≤ kMaxReasonableTime) :
    ∀ (l : List (ℚ × ℚ)) (glb acc e : ℚ),
      (∀ p ∈ l, NicePair p) →
      List.Chain' (fun x y => x.2 ≤ y.1) l →
      (∀ p ∈ l, glb ≤ p.1) → (∀ p ∈ l, p.2 ≤ bl) → glb ≤ bl →
      0 ≤ acc → acc ≤ e → e ≤ acc + idTotal l →
      ∃ x : ℚ, editedToOriginalGo last (l.map mkIdSeg) (.fin e) (.fin acc) = .fin x ∧
        glb ≤ x ∧ 0 ≤ x ∧ x ≤ kMaxReasonableTime ∧
        originalToEditedGo (l.map mkIdSeg) (.fin x) (.fin acc) = .fin e := by
  intro l
  induction l with
  | nil =>
      intro glb acc e _ _ _ _ hglbbl hacc0 hacce heacc
      have he : e = acc := le_antisymm (by simpa [idTotal] using heacc) hacce
      subst he
      refine ⟨bl, ?_, hglbbl, hbl0, hbl24, ?_⟩
      · simp only [List.map_nil, editedToOriginalGo]
        exact hfall
      · simp only [List.map_nil, originalToEditedGo]
  | cons p rest ih =>
      intro glb acc e hn hc hlb hub hglbbl hacc0 hacce heacc
      have hp : NicePair p := hn p (List.mem_cons_self p rest)
      have hd : 0 < p.2 - p.1 := lt_of_lt_of_le kMinDuration_pos hp.2.2
      have hn2 : ∀ q ∈ rest, NicePair q := fun q hq => hn q (List.mem_cons_of_mem p hq)
      have hlbp : glb ≤ p.1 := hlb p (List.mem_cons_self p rest)
      have hubp : p.2 ≤ bl := hub p (List.mem_cons_self p rest)
      rw [List.map_cons]
      by_cases hle : e ≤ acc + (p.2 - p.1)
      · refine ⟨p.1 + (e - acc), e2oGo_cons_le last p _ e acc hp hacce hle,
          by linarith, by linarith [hp.1], by linarith [hp.2.1], ?_⟩
        by_cases hxb : p.1 + (e - acc) < p.2
        · rw [o2eGo_cons_mid p _ _ acc hp (by linarith) hxb]
          simp only [DVal.fin.injEq]
          ring
        · have hxe : p.1 + (e - acc) = p.2 := le_antisymm (by linarith) (not_lt.1 hxb)
          have he2 : e = acc + (p.2 - p.1) := by linarith
          rw [o2eGo_cons_ge p _ _ acc hp (by linarith)]
          cases rest with
          | nil =>
              simp only [List.map_nil, originalToEditedGo, DVal.fin.injEq]
              linarith
          | cons q rest2 =>
              rw [List.map_cons]
              have hq : NicePair q := hn2 q (List.mem_cons_self q rest2)
              have hbq : p.2 ≤ q.1 := (List.chain'_cons.1 hc).1
              by_cases hlt : p.1 + (e - acc) < q.1
              · rw [o2eGo_cons_lt q _ _ _ hq hlt]
                simp only [DVal.fin.injEq]
                linarith
              · have hpq : p.1 + (e - acc) = q.1 := by
                  rw [hxe] at hlt ⊢
                  exact le_antisymm hbq (not_lt.1 hlt)
                rw [o2eGo_cons_mid q _ _ _ hq (by linarith) (by linarith [hq.lt12])]
                simp only [DVal.fin.injEq]
                linarith
      · have hc2 : List.Chain' (fun x y => x.2 ≤ y.1) rest := hc.tail
        have hlb2 : ∀ q ∈ rest, p.2 ≤ q.1 := nice_chain_lb p rest hn2 hc
        have hub2 : ∀ q ∈ rest, q.2 ≤ bl := fun q hq => hub q (List.mem_cons_of_mem p hq)
        obtain ⟨x, hx, hglbx, hx0, hx24, ho2e⟩ :=
          ih p.2 (acc + (p.2 - p.1)) e hn2 hc2 hlb2 hub2 hubp (by linarith) (by linarith)
            (by rw [idTotal_cons] at heacc; linarith)
        refine ⟨x, ?_, by linarith [hp.lt12], hx0, hx24, ?_⟩
        · rw [e2oGo_cons_gt last p _ e acc hp hle]
          exact hx
        · rw [o2eGo_cons_ge p _ x acc hp (by linarith)]
          exact ho2e

/-- C2: for every monotone timeline (each segment's original interval equal
to its edited interval, segments sorted and non-overlapping, well-formed)
and every edited time in the covered range `[0, total edited duration]`,
`originalToEdited (editedToOriginal e)` is `e` to within 1 µs (the model
computes it exactly). -/
theorem roundTrip_monotone (l : List (ℚ × ℚ))
    (hnice : ∀ p ∈ l, NicePair p)
    (hsort : List.Chain' (fun x y => x.2 ≤ y.1) l)
    (e : ℚ) (he0 : 0 ≤ e) (he1 : e ≤ idTotal l) :
    ∃ x : ℚ,
      originalToEdited (l.map mkIdSeg) (editedToOriginal (l.map mkIdSeg) (.fin e)) =
        .fin x ∧ |x - e| ≤ 1 / 1000000 := by
  cases l with
  | nil =>
      have he : e = 0 := le_antisymm (by simpa [idTotal] using he1) he0
      subst he
      refine ⟨0, ?_, by norm_num⟩
      simp only [List.map_nil, editedToOriginal, originalToEdited]
      rw [sanitizeTime_id 0 _ (le_refl 0) (by norm_num [kMaxReasonableTime]),
        sanitizeTime_id 0 _ (le_refl 0) (by norm_num [kMaxReasonableTime])]
  | cons p0 l' =>
      have hmem : l'.getLastD p0 ∈ p0 :: l' := getLastD_mem_cons l' p0
      have hnl : NicePair (l'.getLastD p0) := hnice _ hmem
      have hub : ∀ p ∈ p0 :: l', p.2 ≤ (l'.getLastD p0).2 :=
        nice_chain_ub l' p0 hnice hsort
      have htot : p0.1 + idTotal (p0 :: l') ≤ (l'.getLastD p0).2 :=
        idTotal_le_last l' p0 hnice hsort
      have hp0 : NicePair p0 := hnice _ (List.mem_cons_self p0 l')
      have he24 : e ≤ kMaxReasonableTime := by
        have h1 := hnl.2.1
        have h2 := hp0.1
        linarith
      obtain ⟨x, hx, _, hx0, hx24, ho2e⟩ :=
        roundtripAux (mkIdSeg (l'.getLastD p0)) (l'.getLastD p0).2
          (e2oFallback_mkIdSeg _ hnl) (le_of_lt hnl.pos2) hnl.2.1
          (p0 :: l') 0 0 e hnice hsort (fun p hp => (hnice p hp).1) hub
          (le_of_lt hnl.pos2) (le_refl 0) he0 (by simpa using he1)
      have hlast : (l'.map mkIdSeg).getLastD (mkIdSeg p0) = mkIdSeg (l'.getLastD p0) :=
        getLastD_map mkIdSeg l' p0
      rw [List.map_cons] at hx ho2e
      have he2o : editedToOriginal (mkIdSeg p0 :: l'.map mkIdSeg) (.fin e) = .fin x := by
        simp only [editedToOriginal]
        rw [List.getLastD_cons, hlast, sanitizeTime_id e _ he0 he24]
        exact hx
      have ho2e2 : originalToEdited (mkIdSeg p0 :: l'.map mkIdSeg) (.fin x) = .fin e := by
        simp only [originalToEdited]
        rw [sanitizeTime_id x _ hx0 hx24]
        exact ho2e
      refine ⟨e, ?_, by norm_num⟩
      rw [List.map_cons, he2o, ho2e2]

/-- Witness for C2: the two-segment monotone timeline with originals
`[0, 1)` and `[2, 3)` round-trips the edited time 3/2 exactly. -/
theorem roundTrip_monotone_witness :
    ∃ x : ℚ,
      originalToEdited ([((0 : ℚ), (1 : ℚ)), ((2 : ℚ), (3 : ℚ))].map mkIdSeg)
          (editedToOriginal ([((0 : ℚ), (1 : ℚ)), ((2 : ℚ), (3 : ℚ))].map mkIdSeg)
            (.fin (3/2))) = .fin x ∧ |x - 3/2| ≤ 1 / 1000000 :=
  roundTrip_monotone [(0, 1), (2, 3)]
    (by
      intro p hp
      rcases List.mem_cons.1 hp with rfl | hp2
      · exact ⟨by norm_num, by norm_num [kMaxReasonableTime], by norm_num [kMinDuration]⟩
      · rw [List.mem_singleton] at hp2
        subst hp2
        exact ⟨by norm_num, by norm_num [kMaxReasonableTime], by norm_num [kMinDuration]⟩)
    (by
      rw [List.chain'_cons]
      exact ⟨by norm_num, List.chain'_singleton _⟩)
    (3/2) (by norm_num) (by norm_num [idTotal])

end TranscriptionJuce
